import Mathlib

/-!
Verification of the motion repository against its design specification.

The development shallowly embeds the core of `src/motion/execute.py`
(the `TransformExecutor` and `PipelineExecutor` classes) and of
`src/motion/store.py` (the trigger registry and the store lifecycle).
Python dictionaries become association lists with unique keys, machine
integers become `Nat`/`Int`, raised exceptions become `Except` values,
and external collaborators (the duckdb store, `croniter.is_valid`, the
`Trigger` base class and `TaskThread`, which are not part of the two
embedded files) become explicit function arguments or, where the design
document is the only authority, definitions marked as modelled from the
spec.
-/

namespace Motion

/-- The Python exceptions raised by the embedded code paths, carrying the
data the surrounding claims inspect. -/
inductive PyError where
  /-- `versionState`: `ValueError("Cannot update state in a transform's constructor.")`. -/
  | valueErrorCtor : PyError
  /-- `addTrigger`: the three `ValueError`s rejecting a handler that is not a
  3-parameter function, not a `Trigger` subclass, or neither function nor class. -/
  | valueErrorHandlerShape : PyError
  /-- `addTrigger`: `ValueError(f"Trigger ... has invalid key ... Valid keys are ...")`,
  carrying the trigger name, the offending key and the list of valid keys. -/
  | invalidKey (trigger : String) (key : String) (validKeys : List String) : PyError
  /-- `fit`: the failure of `assert id not in train_ids`. -/
  | assertionError : PyError
  /-- Reading an attribute that was never assigned, such as `self.cron_threads`
  in `stop()` before any `start()`. -/
  | attributeError (attr : String) : PyError
  /-- Calling a method with a required positional argument missing, as in
  `getTriggersForAllKeys`. -/
  | typeErrorMissingArg (fn : String) (arg : String) : PyError
  /-- `graphlib.TopologicalSorter.prepare()`: `CycleError`. -/
  | cycleError : PyError
  /-- `Store.cursor()`: `Exception("Store has not started. ...")`. -/
  | storeNotStarted : PyError
deriving Repr, DecidableEq

/-- Python dict assignment `d[k] = v` on an association list: overwrite the
entry in place when the key exists, append otherwise. -/
def dictInsert {κ α : Type} [DecidableEq κ] (k : κ) (v : α) : List (κ × α) → List (κ × α)
  | [] => [(k, v)]
  | p :: ps => if p.1 = k then (k, v) :: ps else p :: dictInsert k v ps

/-- Python dict read `d[k]` / `d.get(k)` on an association list. -/
def dictGet? {κ α : Type} [DecidableEq κ] (k : κ) : List (κ × α) → Option α
  | [] => none
  | p :: ps => if p.1 = k then some p.2 else dictGet? k ps

/-- Python `max` over a nonempty list, `None` over an empty one: the
translation of `max(lst or [None])`. -/
def listMax {α : Type} [LinearOrder α] : List α → Option α
  | [] => none
  | x :: xs => some (xs.foldl max x)

/-! ## Transform Executor (`src/motion/execute.py`, class `TransformExecutor`)

The executor's state is its snapshot history (a dict keyed by the id at
which each snapshot was produced), the fit cursor `step`, and the staleness
bound.  The transform's own model state is abstracted to a type `σ`. -/

/-- The fields of `TransformExecutor` the claims are about: `state_history`,
`step` and `max_staleness` (`__init__`, execute.py lines 16-23). -/
structure TransformExecutor (σ : Type) where
  state_history : List (Nat × σ)
  step : Option Nat
  max_staleness : Nat
deriving Repr, DecidableEq

/-- `TransformExecutor.__init__(transform, store, max_staleness)`: empty
history, no fit cursor, the given staleness bound (default 0 at the call
sites that omit it). -/
def initExecutor (σ : Type) (max_staleness : Nat) : TransformExecutor σ :=
  ⟨[], none, max_staleness⟩

/-- `versionState` (execute.py lines 25-30): raise `ValueError` when
`self.step is None`, otherwise deep-copy the state into
`state_history[self.step]`. -/
def versionState {σ : Type} (te : TransformExecutor σ) (st : σ) :
    Except PyError (TransformExecutor σ) :=
  match te.step with
  | none => .error .valueErrorCtor
  | some k => .ok { te with state_history := dictInsert k st te.state_history }

/-- `fit` (execute.py lines 32-72) as it acts on the executor.
`train_ids` is the external store's `idsBefore(id)` result; the body
asserts `id not in train_ids` before any training (line 37), then trains on
exactly `train_ids`, sets the fit cursor `self.step = id` (line 71) and
runs `self.transform.fit`, which may record a snapshot through
`versionState` (modelled by the `records` flag and the state it records).
The cursor is not reset when the call returns.  The result pairs the
executor after the call with the training set used. -/
def fitTE {σ : Type} (te : TransformExecutor σ) (train_ids : List Nat) (id : Nat)
    (records : Bool) (st : σ) : Except PyError (TransformExecutor σ × List Nat) :=
  if id ∈ train_ids then .error .assertionError
  else
    let te1 : TransformExecutor σ := { te with step := some id }
    if records then
      match versionState te1 st with
      | .error e => .error e
      | .ok te2 => .ok (te2, train_ids)
    else .ok (te1, train_ids)

/-- The snapshot versions qualifying in `infer` (execute.py lines 91-98):
`v <= id and v >= id - self.max_staleness` with Python integer arithmetic;
over naturals the second conjunct is `id ≤ v + s`. -/
def qualifyingVersions (hist : List Nat) (s id : Nat) : List Nat :=
  hist.filter (fun v => decide (v ≤ id) && decide (id ≤ v + s))

/-- The version-selection and fallback-fit logic of `infer` (execute.py
lines 91-103): `version = max([...] or [None])`, then `if not version:`
triggers a synchronous `fit(id)` and uses `version = id`.  The result is
the version whose snapshot is used and whether the fit branch was taken.
`if not version:` is Python truthiness: both `None` and `0` take it. -/
def inferVersion (hist : List Nat) (s id : Nat) : Nat × Bool :=
  match listMax (qualifyingVersions hist s id) with
  | none => (id, true)
  | some v => if v = 0 then (id, true) else (v, false)

/-- `infer` on an executor selects over the keys of its own state history
with its own staleness bound. -/
def inferTE {σ : Type} (te : TransformExecutor σ) (id : Nat) : Nat × Bool :=
  inferVersion (te.state_history.map (fun p => p.1)) te.max_staleness id

/-! ## Pipeline Executor (`src/motion/execute.py`, class `PipelineExecutor`)

`transform_dag` is a Python dict mapping each transform name to the set of
names it depends on; `executemany` hands it to
`graphlib.TopologicalSorter`, whose `prepare()` raises `CycleError` on a
cyclic graph, and then drains `get_ready()` batches, running the whole
batch of ids through each ready node before marking it done. -/

/-- The dependency dag: transform name to the list of its dependencies. -/
abbrev Dag := List (String × List String)

/-- The dag's node names (the dict's keys). -/
def dagKeys (d : Dag) : List String := d.map (fun p => p.1)

/-- The declared dependencies of a node (empty for a name not in the dag). -/
def depsOf (d : Dag) (n : String) : List String := (dictGet? n d).getD []

/-- One `get_ready()` batch: the dag entries not yet done whose
dependencies are all done. -/
def readyNodes (d : Dag) (done : List String) : List String :=
  (d.filter (fun p => decide (p.1 ∉ done) && p.2.all (fun q => decide (q ∈ done)))).map
    (fun p => p.1)

/-- Kahn peeling: repeatedly mark every ready node done; `true` when every
node ends up done.  `TopologicalSorter.prepare()` succeeds exactly when
this process completes, and raises `CycleError` otherwise. -/
def peel (d : Dag) : Nat → List String → Bool
  | 0, done => (dagKeys d).all (fun n => decide (n ∈ done))
  | fuel + 1, done =>
      let r := readyNodes d done
      if r = [] then (dagKeys d).all (fun n => decide (n ∈ done))
      else peel d fuel (done ++ r)

/-- `prepare()` raises `CycleError` exactly when peeling cannot finish. -/
def hasCycle (d : Dag) : Bool := !peel d d.length []

/-- The sequence of nodes the `while self.ts.is_active()` loop of
`executemany` processes, in order (execute.py lines 139-147): each node of
a `get_ready()` batch runs and is marked done, then the next batch is
taken. -/
def execNodes (d : Dag) : Nat → List String → List String
  | 0, _ => []
  | fuel + 1, done =>
      let r := readyNodes d done
      if r = [] then [] else r ++ execNodes d fuel (done ++ r)

/-- The block of `infer` invocations one node performs: one event per id of
the batch, in batch order (`for id in track(ids, ...)`). -/
def nodeBlock (ids : List Nat) (n : String) : List (String × Nat) :=
  ids.map (fun i => (n, i))

/-- `executemany(ids)` (execute.py lines 129-149), observed as the ordered
trace of `infer(id)` invocations it performs: `prepare()` first (raising
`CycleError` on a cyclic dag, before any node runs), then the ready-batch
loop. -/
def executemany (d : Dag) (ids : List Nat) : Except PyError (List (String × Nat)) :=
  if hasCycle d then .error .cycleError
  else .ok ((execNodes d d.length []).flatMap (nodeBlock ids))

/-- A nonempty dependency path in the dag: `DepPath d a b k` when one can
walk from `a` to `b` along `k ≥ 1` dependency edges.  A cycle is a path
from a node back to itself. -/
inductive DepPath (d : Dag) : String → String → Nat → Prop where
  | single {a b : String} : b ∈ depsOf d a → DepPath d a b 1
  | cons {a b c : String} {k : Nat} : b ∈ depsOf d a → DepPath d b c k →
      DepPath d a c (k + 1)

/-- The pipeline executor's registries (`__init__`, execute.py lines
115-119). -/
structure PipelineExecutor (σ : Type) where
  transforms : List (String × TransformExecutor σ)
  transform_dag : Dag
deriving Repr, DecidableEq

/-- `addTransform(transform, dependencies)` (execute.py lines 121-127):
registers `TransformExecutor(transform, self.store)` — the call passes no
`max_staleness`, so the default 0 applies — under the transform's name and
records the dependency names in the dag. -/
def addTransform {σ : Type} (pe : PipelineExecutor σ) (name : String)
    (dependencies : List String) : PipelineExecutor σ :=
  { transforms := dictInsert name (initExecutor σ 0) pe.transforms,
    transform_dag := dictInsert name dependencies pe.transform_dag }

/-! ### Executor-level call traces

To speak about what `versionState` does when no `fit` call is in progress,
the executor's public API is replayed as a list of completed calls: a
whole `fit` call, and a `versionState` call arriving from outside any
`fit` (inside a `fit`, the recording is part of the `fitCall` event). -/

/-- A completed executor-level call. -/
inductive ExecutorOp (σ : Type) where
  /-- One whole `fit(id)` call with the store's `idsBefore(id)` result and
  whether the wrapped `transform.fit` recorded a snapshot (and which state). -/
  | fitCall (train_ids : List Nat) (id : Nat) (records : Bool) (st : σ)
  /-- A `versionState(state)` call made while no `fit` call is in progress. -/
  | versionStateCall (st : σ)

/-- The executor after one completed call. -/
def runOp {σ : Type} (te : TransformExecutor σ) :
    ExecutorOp σ → Except PyError (TransformExecutor σ)
  | .fitCall train_ids id records st =>
      match fitTE te train_ids id records st with
      | .error e => .error e
      | .ok (te2, _) => .ok te2
  | .versionStateCall st => versionState te st

/-- The executor after a sequence of completed calls; an exception aborts
the run. -/
def runOps {σ : Type} (te : TransformExecutor σ) :
    List (ExecutorOp σ) → Except PyError (TransformExecutor σ)
  | [] => .ok te
  | op :: ops =>
      match runOp te op with
      | .error e => .error e
      | .ok te2 => runOps te2 ops

/-- The id of the last `fit` call of a trace, if any. -/
def lastFitId {σ : Type} : List (ExecutorOp σ) → Option Nat
  | [] => none
  | op :: ops =>
      match lastFitId ops with
      | some k => some k
      | none =>
          match op with
          | .fitCall _ id _ _ => some id
          | .versionStateCall _ => none

/-! ## Trigger registry (`src/motion/store.py`, class `Store`)

The duckdb log table is embedded as a list of (trigger_name,
trigger_version) rows; `croniter.is_valid` is an external predicate passed
as a function; a handler is abstracted to the shape `addTrigger` inspects:
a function with a parameter count, a class that is or is not a `Trigger`
subclass, or anything else. -/

/-- What `addTrigger` inspects about the handler it was given. -/
inductive HandlerShape where
  | func (nparams : Nat)
  | cls (isTriggerSubclass : Bool)
  | other
deriving Repr, DecidableEq

/-- `inspect.isclass(trigger)`. -/
def handlerIsClass : HandlerShape → Bool
  | .cls _ => true
  | _ => false

/-- The handler shapes `addTrigger` accepts: a 3-parameter function or a
`Trigger` subclass (store.py lines 207-224). -/
def handlerShapeOk : HandlerShape → Bool
  | .func n => decide (n = 3)
  | .cls b => b
  | .other => false

/-- The `TriggerFn(name, trigger_exec, isclass)` records filed under the
dispatch indices; the executable is abstracted to its shape. -/
structure TriggerFnM where
  name : String
  isTransform : Bool
deriving Repr, DecidableEq

/-- The `trigger_exec` value `addTrigger` stores: the function itself for a
function handler, or the constructed `Trigger` instance, carrying the
version its constructor stored, for a class handler. -/
inductive HandlerExec where
  | funcExec : HandlerExec
  | clsExec (version : Int) : HandlerExec
deriving Repr, DecidableEq

/-- The registry state of a `Store`: `table_columns` (the namespace column
reference), the four trigger maps, and `_listening` (which gates
`cursor()`). -/
structure Registry where
  listening : Bool
  table_columns : List (String × List String)
  trigger_names : List (String × List String)
  trigger_fns : List (String × HandlerExec)
  triggers : List (String × List TriggerFnM)
  cron_triggers : List (String × List TriggerFnM)
deriving Repr, DecidableEq

/-- `all_possible_keys` (store.py lines 227-231): every
`"namespace.field"` over the namespace column reference. -/
def allPossibleKeys (tc : List (String × List String)) : List String :=
  tc.flatMap (fun p => p.2.map (fun k => p.1 ++ "." ++ k))

/-- Filing one key (store.py lines 252-261): a valid cron expression goes
to `cron_triggers`, anything else to the direct-dispatch `triggers` index,
appended to the list already filed under that key. -/
def fileKey (cronValid : String → Bool) (tf : TriggerFnM) (reg : Registry)
    (key : String) : Registry :=
  if cronValid key then
    { reg with cron_triggers :=
        (dictInsert key (((dictGet? key reg.cron_triggers).getD []) ++ [tf])
          reg.cron_triggers) }
  else
    { reg with triggers :=
        dictInsert key (((dictGet? key reg.triggers).getD []) ++ [tf]) reg.triggers }

/-- The trigger log rows `addTrigger` queries: (trigger_name,
trigger_version). -/
abbrev TriggerLog := List (String × Int)

/-- The rows of the log for one trigger name, as read by
`SELECT MAX(trigger_version) FROM logs WHERE trigger_name = name`. -/
def loggedVersions (log : TriggerLog) (name : String) : List Int :=
  (log.filter (fun e => decide (e.1 = name))).map (fun e => e.2)

/-- `version = version[0] if version[0] else 0` (store.py line 244): the
SQL MAX is NULL on no rows, and Python truthiness maps both NULL and 0
to 0. -/
def pyVersionOrZero (m : Option Int) : Int :=
  match m with
  | none => 0
  | some v => if v = 0 then 0 else v

/-- Modelled from the spec: the `Trigger` base class (motion/trigger.py, not
under src/) is constructed by `addTrigger` as
`trigger(self.cursor(), name, version)` with the queried maximum; per the
design document the registration's version starts at
`1 + max(previously logged trigger_version for this name, default 0)`, so
the constructor stores one more than the value it is passed. -/
def triggerInitVersion (v : Int) : Int := v + 1

/-- The version stored for a registration of `name`: the queried log
maximum through Python truthiness (store.py lines 241-244), then the
`Trigger` constructor. -/
def storedVersion (log : TriggerLog) (name : String) : Int :=
  triggerInitVersion (pyVersionOrZero (listMax (loggedVersions log name)))

/-- The claim's formula, following the spec's words: `1 + max(previously
logged trigger_version for this name, default 0)`. -/
def specStartVersion (log : TriggerLog) (name : String) : Int :=
  1 + (match listMax (loggedVersions log name) with | none => 0 | some v => v)

/-- Modelled from the spec: the dispatch path (motion/dbcon.py, not under
src/) appends one firing log entry carrying the trigger's current
version. -/
def fireEntry (name : String) (version : Int) : String × Int := (name, version)

/-- `addTrigger(name, keys, trigger)` (store.py lines 181-261).  In source
order: silent no-op on a duplicate name; rejection of a handler that is not
a 3-parameter function or a `Trigger` subclass; rejection of the first key
that is neither a known `namespace.field` nor (per `croniter.is_valid`) a
cron expression; only then the mutations — `trigger_names[name] = keys`,
the version query, the handler instantiation (`self.cursor()` raises when
the store has not started, with `trigger_names` already written),
`trigger_fns[name]`, and the filing of each key.  An error carries the
registry as it stands when the exception is raised. -/
def addTrigger (cronValid : String → Bool) (reg : Registry) (log : TriggerLog)
    (name : String) (keys : List String) (h : HandlerShape) :
    Except (PyError × Registry) Registry :=
  if (dictGet? name reg.trigger_names).isSome then .ok reg
  else if !handlerShapeOk h then .error (.valueErrorHandlerShape, reg)
  else
    match keys.find? (fun k =>
        decide (k ∉ allPossibleKeys reg.table_columns) && !cronValid k) with
    | some k => .error (.invalidKey name k (allPossibleKeys reg.table_columns), reg)
    | none =>
        if handlerIsClass h && !reg.listening then
          .error (.storeNotStarted,
            { reg with trigger_names := dictInsert name keys reg.trigger_names })
        else
          .ok (keys.foldl (fileKey cronValid ⟨name, handlerIsClass h⟩)
            { reg with
              trigger_names := dictInsert name keys reg.trigger_names,
              trigger_fns := dictInsert name
                (if handlerIsClass h then HandlerExec.clsExec (storedVersion log name)
                  else HandlerExec.funcExec)
                reg.trigger_fns })

/-- `getTriggersForKey(namespace, key)` (store.py lines 285-296): the names
filed under `"namespace.key"` in the direct-dispatch index. -/
def getTriggersForKey (reg : Registry) (ns key : String) : List String :=
  ((dictGet? (ns ++ "." ++ key) reg.triggers).getD []).map (fun t => t.name)

/-- `getTriggersForAllKeys()` (store.py lines 298-304) evaluates
`self.getTriggersForKey(k)` for each key of the direct-dispatch index, but
`getTriggersForKey` requires the two positional arguments `namespace` and
`key`: over a nonempty index the first evaluation raises
`TypeError: ... missing 1 required positional argument`, and over an empty
index the dict comprehension is empty. -/
def getTriggersForAllKeys (reg : Registry) :
    Except PyError (List (String × List String)) :=
  match reg.triggers with
  | [] => .ok []
  | _ :: _ => .error (.typeErrorMissingArg "getTriggersForKey" "key")

/-! ## Store lifecycle (`src/motion/store.py`, `start` and `stop`)

`TaskThread` (motion/task.py) is not under src/; only the running flag the
lifecycle claims need is modelled, from the spec's description of the cron
workers. -/

/-- Modelled from the spec: a cron worker thread (motion/task.py, not under
src/), reduced to whether it is still scheduled to fire. -/
structure TaskThreadM where
  running : Bool
deriving Repr, DecidableEq

/-- Modelled from the spec: `TaskThread.stop()` followed by `join()`
terminates the worker; stopping a stopped worker leaves it stopped. -/
def taskStop (t : TaskThreadM) : TaskThreadM := { t with running := false }

/-- The lifecycle state of a `Store`: `_listening`, the registered cron
triggers (each expression with its number of handlers), and
`cron_threads`, which is `none` until `start()` first assigns it —
reading it then raises `AttributeError`. -/
structure StoreLifecycle where
  listening : Bool
  cron_triggers : List (String × Nat)
  cron_threads : Option (List (String × List TaskThreadM))
deriving Repr, DecidableEq

/-- `Store.__init__` (store.py lines 41-86): `_listening = False` and no
`cron_threads` attribute. -/
def storeInit (ct : List (String × Nat)) : StoreLifecycle := ⟨false, ct, none⟩

/-- `start()` (store.py lines 306-317): set `_listening`, then spawn one
`TaskThread` per (cron expression, registered handler) pair. -/
def storeStart (st : StoreLifecycle) : StoreLifecycle :=
  { st with
    listening := true,
    cron_threads :=
      some (st.cron_triggers.map (fun p =>
        (p.1, (List.range p.2).map (fun _ => ⟨true⟩)))) }

/-- `stop()` (store.py lines 319-327): iterate `self.cron_threads` —
raising `AttributeError` when `start()` never assigned it — stop and join
every worker, then clear `_listening`. -/
def storeStop (st : StoreLifecycle) : Except PyError StoreLifecycle :=
  match st.cron_threads with
  | none => .error (.attributeError "cron_threads")
  | some ths =>
      .ok { st with
        listening := false,
        cron_threads := some (ths.map (fun p => (p.1, p.2.map taskStop))) }

/-! ### Concrete states used by the examples -/

/-- A registry whose namespace reference has the single column
`chat.prompt` and which already holds a trigger named `t`. -/
def dupReg : Registry :=
  ⟨false, [("chat", ["prompt"])], [("t", ["chat.prompt"])], [("t", .funcExec)],
    [("chat.prompt", [⟨"t", false⟩])], []⟩

/-- An empty registry over the single column `chat.prompt`, on a started
store. -/
def chatReg : Registry := ⟨true, [("chat", ["prompt"])], [], [], [], []⟩

/-! ## Helper lemmas -/

theorem dictGet?_dictInsert_self {κ α : Type} [DecidableEq κ] (k : κ) (v : α)
    (l : List (κ × α)) : dictGet? k (dictInsert k v l) = some v := by
  induction l with
  | nil => simp [dictInsert, dictGet?]
  | cons p ps ih =>
      by_cases h : p.1 = k
      · simp [dictInsert, dictGet?, h]
      · simp [dictInsert, dictGet?, h, ih]

theorem foldl_max_le_iff {α : Type} [LinearOrder α] (xs : List α) (a c : α) :
    xs.foldl max a ≤ c ↔ a ≤ c ∧ ∀ w ∈ xs, w ≤ c := by
  induction xs generalizing a with
  | nil => simp
  | cons x xs ih =>
      simp only [List.foldl_cons, ih, max_le_iff, List.mem_cons]
      constructor
      · rintro ⟨⟨ha, hx⟩, hall⟩
        exact ⟨ha, fun w hw => hw.elim (fun h => h ▸ hx) (hall w)⟩
      · rintro ⟨ha, hall⟩
        exact ⟨⟨ha, hall x (Or.inl rfl)⟩, fun w hw => hall w (Or.inr hw)⟩

theorem foldl_max_mem {α : Type} [LinearOrder α] (xs : List α) (a : α) :
    xs.foldl max a = a ∨ xs.foldl max a ∈ xs := by
  induction xs generalizing a with
  | nil => simp
  | cons x xs ih =>
      simp only [List.foldl_cons]
      rcases ih (max a x) with h | h
      · rcases max_choice a x with hm | hm
        · exact Or.inl (by rw [h, hm])
        · exact Or.inr (by rw [h, hm]; exact List.mem_cons_self x xs)
      · exact Or.inr (List.mem_cons_of_mem x h)

theorem listMax_mem {α : Type} [LinearOrder α] {l : List α} {v : α}
    (h : listMax l = some v) : v ∈ l := by
  cases l with
  | nil => simp [listMax] at h
  | cons x xs =>
      simp only [listMax, Option.some.injEq] at h
      subst h
      rcases foldl_max_mem xs x with hm | hm
      · rw [hm]; exact List.mem_cons_self x xs
      · exact List.mem_cons_of_mem x hm

theorem listMax_is_max {α : Type} [LinearOrder α] {l : List α} {v : α}
    (h : listMax l = some v) : ∀ w ∈ l, w ≤ v := by
  cases l with
  | nil => simp [listMax] at h
  | cons x xs =>
      simp only [listMax, Option.some.injEq] at h
      intro w hw
      have hle : xs.foldl max x ≤ xs.foldl max x := le_refl _
      rw [foldl_max_le_iff] at hle
      rcases List.mem_cons.mp hw with hw | hw
      · exact h ▸ hw ▸ hle.1
      · exact h ▸ hle.2 w hw

theorem listMax_of_ne_nil {α : Type} [LinearOrder α] {l : List α} (h : l ≠ []) :
    ∃ v, listMax l = some v := by
  cases l with
  | nil => exact absurd rfl h
  | cons x xs => exact ⟨xs.foldl max x, rfl⟩

theorem mem_qualifyingVersions {hist : List Nat} {s id v : Nat} :
    v ∈ qualifyingVersions hist s id ↔ v ∈ hist ∧ v ≤ id ∧ id ≤ v + s := by
  simp [qualifyingVersions, List.mem_filter, and_assoc]

/-! ## C1 — snapshot selection in `infer` -/

/-- C1 counterexample: with `state_history` holding exactly the snapshot
version 0, `max_staleness = 5` and `id = 3`, version 0 is the greatest
qualifying snapshot version, yet `infer` takes the `if not version:`
branch (Python truthiness of 0), fits synchronously and uses version
`id = 3` — the claim says it selects 0 without fitting. -/
theorem infer_zero_version_counterexample :
    ((0 : Nat) ∈ ([0] : List Nat) ∧ 0 ≤ 3 ∧ 3 ≤ 0 + 5
      ∧ ∀ w ∈ ([0] : List Nat), w ≤ 3 → 3 ≤ w + 5 → w ≤ 0)
    ∧ inferVersion [0] 5 3 = (3, true) := by
  decide

/-- C1 (amended): `infer(id)` selects the snapshot version
`v = max (v2 : v2 ∈ keys state_history, v2 ≤ id, v2 ≥ id - s)` whenever that
maximum exists and is nonzero; when no version qualifies — and also when
the greatest qualifying version is 0, which Python truthiness conflates
with "no version" — it synchronously calls `fit(id)` and uses
`v = id`. -/
theorem infer_selects_greatest_nonzero_version (hist : List Nat) (s id : Nat) :
    (∀ v, v ∈ hist → v ≤ id → id ≤ v + s →
        (∀ w, w ∈ hist → w ≤ id → id ≤ w + s → w ≤ v) →
        inferVersion hist s id = if v = 0 then (id, true) else (v, false))
    ∧ ((∀ v ∈ hist, ¬(v ≤ id ∧ id ≤ v + s)) → inferVersion hist s id = (id, true)) := by
  constructor
  · intro v hv hle hst hgreat
    have hq : v ∈ qualifyingVersions hist s id :=
      mem_qualifyingVersions.mpr ⟨hv, hle, hst⟩
    have hne : qualifyingVersions hist s id ≠ [] := by
      intro hnil; rw [hnil] at hq; cases hq
    obtain ⟨m, hm⟩ := listMax_of_ne_nil hne
    obtain ⟨hmh, hmle, hmst⟩ := mem_qualifyingVersions.mp (listMax_mem hm)
    have hvm : v ≤ m := listMax_is_max hm v hq
    have hmv : m ≤ v := hgreat m hmh hmle hmst
    have hEq : m = v := le_antisymm hmv hvm
    subst hEq
    unfold inferVersion
    rw [hm]
  · intro hnone
    have hq : qualifyingVersions hist s id = [] := by
      cases hqq : qualifyingVersions hist s id with
      | nil => rfl
      | cons x xs =>
          have hx : x ∈ qualifyingVersions hist s id := by
            rw [hqq]; exact List.mem_cons_self _ _
          obtain ⟨h1, h2, h3⟩ := mem_qualifyingVersions.mp hx
          exact absurd ⟨h2, h3⟩ (hnone x h1)
    unfold inferVersion
    rw [hq]
    rfl

/-- Witness for C1: with a snapshot at version 2, `max_staleness = 1` and
`id = 3`, `infer` reuses version 2 without fitting. -/
theorem infer_selects_greatest_nonzero_version_witness :
    inferVersion [2] 1 3 = (2, false) := by
  have h := (infer_selects_greatest_nonzero_version [2] 1 3).1 2 (by decide)
    (by decide) (by decide) (by decide)
  rw [if_neg (by decide : ¬(2 = 0))] at h
  exact h

/-! ## C3 — trigger version computed from the log -/

theorem storedVersion_eq_spec (log : TriggerLog) (name : String) :
    storedVersion log name = specStartVersion log name := by
  unfold storedVersion specStartVersion triggerInitVersion pyVersionOrZero
  cases hm : listMax (loggedVersions log name) with
  | none => simp
  | some v =>
      show (if v = 0 then 0 else v) + 1 = 1 + v
      by_cases hv : v = 0
      · subst hv; simp
      · rw [if_neg hv]; ring

theorem fileKey_trigger_fns (cronValid : String → Bool) (tf : TriggerFnM)
    (reg : Registry) (key : String) :
    (fileKey cronValid tf reg key).trigger_fns = reg.trigger_fns := by
  unfold fileKey; split <;> rfl

theorem foldl_fileKey_trigger_fns (cronValid : String → Bool) (tf : TriggerFnM)
    (keys : List String) : ∀ (reg : Registry),
    (keys.foldl (fileKey cronValid tf) reg).trigger_fns = reg.trigger_fns := by
  induction keys with
  | nil => intro reg; rfl
  | cons k ks ih => intro reg; rw [List.foldl_cons, ih, fileKey_trigger_fns]

/-- C3: a successful registration of a fresh name with a class handler
stores the handler constructed with version
`1 + max(previously logged trigger_version for this name, default 0)`; in
particular, for a name with no prior log rows the stored version is 1, so
the first firing is logged with `trigger_version = 1` (firing itself is
modelled from the spec, as `fireEntry`). -/
theorem addTrigger_version_one_plus_max (cronValid : String → Bool) (reg : Registry)
    (log : TriggerLog) (name : String) (keys : List String) (b : Bool)
    (reg2 : Registry)
    (hname : dictGet? name reg.trigger_names = none)
    (h : addTrigger cronValid reg log name keys (.cls b) = .ok reg2) :
    dictGet? name reg2.trigger_fns = some (.clsExec (specStartVersion log name))
    ∧ (loggedVersions log name = [] →
        dictGet? name reg2.trigger_fns = some (.clsExec 1)
        ∧ fireEntry name (specStartVersion log name) = (name, 1)) := by
  cases b with
  | false => simp [addTrigger, hname, handlerShapeOk] at h
  | true =>
      unfold addTrigger at h
      split at h
      · next hdup => rw [hname] at hdup; simp at hdup
      · split at h
        · next hsh => simp [handlerShapeOk] at hsh
        · split at h
          · simp at h
          · split at h
            · simp at h
            · simp only [Except.ok.injEq] at h
              subst h
              rw [foldl_fileKey_trigger_fns]
              simp only [handlerIsClass, if_pos]
              constructor
              · rw [dictGet?_dictInsert_self, storedVersion_eq_spec]
              · intro hnil
                have hone : specStartVersion log name = 1 := by
                  simp [specStartVersion, hnil, listMax]
                refine ⟨?_, by rw [hone]; rfl⟩
                rw [dictGet?_dictInsert_self, storedVersion_eq_spec, hone]

/-- Witness for C3: registering `t1` with a class handler over an empty log
stores version 1. -/
theorem addTrigger_version_one_plus_max_witness :
    dictGet? "t1" (⟨true, [("chat", ["prompt"])], [("t1", ["chat.prompt"])],
        [("t1", .clsExec 1)], [("chat.prompt", [⟨"t1", true⟩])], []⟩ :
        Registry).trigger_fns
      = some (.clsExec 1) :=
  (addTrigger_version_one_plus_max (fun _ => false) chatReg [] "t1"
    ["chat.prompt"] true _ rfl rfl).2 rfl |>.1

/-! ## C5 — the fit cursor and out-of-band `versionState` -/

theorem runOps_step {σ : Type} (ops : List (ExecutorOp σ)) :
    ∀ (te te2 : TransformExecutor σ), runOps te ops = .ok te2 →
      te2.step = (match lastFitId ops with | some k => some k | none => te.step) := by
  induction ops with
  | nil =>
      intro te te2 h
      simp only [runOps, Except.ok.injEq] at h
      subst h
      rfl
  | cons op ops ih =>
      intro te te2 h
      cases op with
      | fitCall tids id rec st =>
          by_cases hmem : id ∈ tids
          · simp [runOps, runOp, fitTE, hmem] at h
          · have hred : ∃ te1 : TransformExecutor σ, te1.step = some id
                ∧ runOps te1 ops = .ok te2 := by
              cases rec with
              | false =>
                  refine ⟨⟨te.state_history, some id, te.max_staleness⟩, rfl, ?_⟩
                  simpa [runOps, runOp, fitTE, hmem] using h
              | true =>
                  refine ⟨⟨dictInsert id st te.state_history, some id,
                    te.max_staleness⟩, rfl, ?_⟩
                  simpa [runOps, runOp, fitTE, versionState, hmem] using h
            obtain ⟨te1, h1, hruns⟩ := hred
            have hstep := ih te1 te2 hruns
            rw [hstep, h1]
            cases hfi : lastFitId ops with
            | some k => simp [lastFitId, hfi]
            | none => simp [lastFitId, hfi]
      | versionStateCall st =>
          cases hts : te.step with
          | none => simp [runOps, runOp, versionState, hts] at h
          | some k =>
              have hruns : runOps { te with
                  state_history := dictInsert k st te.state_history } ops
                  = .ok te2 := by
                simpa [runOps, runOp, versionState, hts] using h
              have hstep := ih _ te2 hruns
              rw [hstep]
              cases hfi : lastFitId ops with
              | some k2 => simp [lastFitId, hfi]
              | none => simp [lastFitId, hfi, hts]

/-- C5 counterexample: after one completed `fit` at id 5 (in which the
transform recorded nothing), a `versionState` call arriving while no fit is
in progress is not rejected: it succeeds and records the state under key 5,
because `fit` never resets `self.step` on return — the claim says every
such call raises and records nothing. -/
theorem versionState_after_fit_records :
    runOps (initExecutor Nat 0) [.fitCall [] 5 false 0, .versionStateCall 7]
      = .ok ⟨[(5, 7)], some 5, 0⟩ := rfl

/-- C5 (amended): `versionState` is rejected exactly when the fit cursor has
never been set — that is, when no `fit` call has occurred, as in the
transform's constructor; after any completed `fit`, the cursor stays equal
to the last fit's id, and a later out-of-band `versionState` succeeds and
records its state under that id. -/
theorem versionState_gated_by_last_fit {σ : Type} (s : Nat)
    (ops : List (ExecutorOp σ)) (st : σ) (te : TransformExecutor σ)
    (h : runOps (initExecutor σ s) ops = .ok te) :
    (lastFitId ops = none → versionState te st = .error .valueErrorCtor)
    ∧ (∀ k, lastFitId ops = some k → ∃ te2, versionState te st = .ok te2
        ∧ dictGet? k te2.state_history = some st) := by
  have hstep := runOps_step ops (initExecutor σ s) te h
  constructor
  · intro hn
    rw [hn] at hstep
    have hs : te.step = none := by simpa [initExecutor] using hstep
    unfold versionState
    rw [hs]
  · intro k hk
    rw [hk] at hstep
    have hs : te.step = some k := by simpa using hstep
    refine ⟨{ te with state_history := dictInsert k st te.state_history }, ?_, ?_⟩
    · unfold versionState
      rw [hs]
    · exact dictGet?_dictInsert_self k st te.state_history

/-- Witness for C5 (amended): after the one-fit trace at id 5, an
out-of-band `versionState` stores state 7 under key 5. -/
theorem versionState_gated_by_last_fit_witness :
    ∃ te2, versionState (⟨[], some 5, 0⟩ : TransformExecutor Nat) 7 = .ok te2
      ∧ dictGet? 5 te2.state_history = some 7 :=
  (versionState_gated_by_last_fit 0 [.fitCall [] 5 false 0] 7
    ⟨[], some 5, 0⟩ rfl).2 5 rfl

/-! ## C6 — store stop lifecycle -/

/-- C6 counterexample: calling `stop()` on a store on which `start()` was
never called raises `AttributeError` — `__init__` never assigns
`self.cron_threads`, which `stop()` iterates — instead of terminating
without raising as the claim states. -/
theorem stop_before_start_raises :
    storeStop (storeInit [("0 * * * *", 1)])
      = .error (.attributeError "cron_threads") := rfl

/-- C6 (amended): `stop()` raises `AttributeError` when called before any
`start()`; once `start()` has been called, `stop()` succeeds with
`_listening` cleared, and calling it twice in a row is equivalent to
calling it once. -/
theorem stop_idempotent_after_start (st : StoreLifecycle) :
    ∃ st2, storeStop (storeStart st) = .ok st2 ∧ storeStop st2 = .ok st2
      ∧ st2.listening = false := by
  refine ⟨_, rfl, ?_, rfl⟩
  unfold storeStop storeStart
  simp only [List.map_map]
  congr 3
  apply List.map_congr_left
  intro p _
  simp [taskStop, Function.comp, List.map_map]

/-! ## C8 — `fit` excludes its own id from the training set -/

/-- C8: `fit(id)` either fails the `assert id not in train_ids` precondition
before any training happens (when the store's ids-before query produced a
set containing `id`), or trains on exactly the ids-before result, which
then cannot contain `id`; when the store honours its contract that every
returned id is strictly before `id`, the training set holds only ids
strictly before `id`. -/
theorem fit_excludes_own_id {σ : Type} (idsBefore : Nat → List Nat) (id : Nat)
    (te : TransformExecutor σ) (records : Bool) (st : σ) :
    (id ∈ idsBefore id →
      fitTE te (idsBefore id) id records st = .error .assertionError)
    ∧ (∀ te2 tset, fitTE te (idsBefore id) id records st = .ok (te2, tset) →
        tset = idsBefore id ∧ id ∉ tset
        ∧ ((∀ j ∈ idsBefore id, j < id) → ∀ j ∈ tset, j < id)) := by
  constructor
  · intro hmem
    simp [fitTE, hmem]
  · intro te2 tset h
    by_cases hmem : id ∈ idsBefore id
    · simp [fitTE, hmem] at h
    · have htset : tset = idsBefore id := by
        cases records with
        | false =>
            simp only [fitTE, if_neg hmem, Bool.false_eq_true, if_false,
              Except.ok.injEq, Prod.mk.injEq] at h
            exact h.2.symm
        | true =>
            simp only [fitTE, if_neg hmem, if_pos, versionState,
              Except.ok.injEq, Prod.mk.injEq] at h
            exact h.2.symm
      subst htset
      exact ⟨rfl, hmem, fun hlt j hj => hlt j hj⟩

/-- Witness for C8: with prior ids `[1, 2]` and `id = 3`, `fit` trains on a
set that excludes 3; with the (contract-violating) prior ids `[3]`, the
assert fires. -/
theorem fit_excludes_own_id_witness :
    (3 : Nat) ∉ ([1, 2] : List Nat)
    ∧ fitTE (initExecutor Nat 0) [3] 3 false 0 = .error .assertionError := by
  refine ⟨((fit_excludes_own_id (fun _ => [1, 2]) 3 (initExecutor Nat 0) false 0).2
      ⟨[], some 3, 0⟩ [1, 2] rfl).2.1, ?_⟩
  exact (fit_excludes_own_id (fun _ => [3]) 3 (initExecutor Nat 0) false 0).1
    (by decide)

/-! ## C7 — invalid trigger keys -/

/-- C7 counterexample: in a registry state where a trigger named `t`
already exists, `addTrigger` for `t` with the invalid key `nosuch.field`
returns without raising (the duplicate-name no-op precedes key
validation) and changes nothing, while the claim demands an error naming
the invalid key for every registry state. -/
theorem addTrigger_invalid_key_counterexample :
    addTrigger (fun _ => false) dupReg [] "t" ["nosuch.field"] (.func 3)
      = .ok dupReg
    ∧ "nosuch.field" ∉ allPossibleKeys dupReg.table_columns := by
  exact ⟨rfl, by decide⟩

/-- C7 (amended): for a registry state in which `name` is not yet
registered and the handler has an accepted shape, `addTrigger` with a keys
list containing a key that is neither a known `namespace.field` of the
namespace column reference nor a valid cron expression raises `ValueError`
naming the first such key and carrying the list of valid keys, and the
registry at the moment of the raise is the entry state, unchanged. -/
theorem addTrigger_invalid_key_rejected (cronValid : String → Bool)
    (reg : Registry) (log : TriggerLog) (name : String) (keys : List String)
    (h : HandlerShape)
    (hname : dictGet? name reg.trigger_names = none)
    (hshape : handlerShapeOk h = true)
    (hbad : ∃ k ∈ keys, k ∉ allPossibleKeys reg.table_columns
      ∧ cronValid k = false) :
    ∃ k, addTrigger cronValid reg log name keys h
        = .error (.invalidKey name k (allPossibleKeys reg.table_columns), reg)
      ∧ k ∈ keys ∧ k ∉ allPossibleKeys reg.table_columns
      ∧ cronValid k = false := by
  have hfind : (keys.find? (fun k =>
      decide (k ∉ allPossibleKeys reg.table_columns) && !cronValid k)).isSome := by
    rw [List.find?_isSome]
    obtain ⟨k, hk, hk1, hk2⟩ := hbad
    exact ⟨k, hk, by simp [hk1, hk2]⟩
  obtain ⟨k, hk⟩ := Option.isSome_iff_exists.mp hfind
  have hkp := List.find?_some hk
  have hkmem := List.mem_of_find?_eq_some hk
  simp only [Bool.and_eq_true, decide_eq_true_eq, Bool.not_eq_true'] at hkp
  refine ⟨k, ?_, hkmem, hkp.1, hkp.2⟩
  simp only [addTrigger, hname, hshape, hk, Option.isSome_none,
    Bool.false_eq_true, if_false, Bool.not_true]

/-- Witness for C7 (amended): registering `bad` on the sole invalid key
`nosuch.field` over the `chat.prompt` reference raises the structured
error. -/
theorem addTrigger_invalid_key_rejected_witness :
    addTrigger (fun _ => false) chatReg [] "bad" ["nosuch.field"] (.func 3)
      = .error (.invalidKey "bad" "nosuch.field"
          (allPossibleKeys chatReg.table_columns), chatReg) := by
  obtain ⟨k, heq, hkmem, _, _⟩ := addTrigger_invalid_key_rejected
    (fun _ => false) chatReg [] "bad" ["nosuch.field"] (.func 3) rfl rfl
    ⟨"nosuch.field", by decide, by decide, rfl⟩
  have hkk : k = "nosuch.field" := by simpa using hkmem
  subst hkk
  exact heq

/-! ## C9 — `getTriggersForAllKeys` raises on a nonempty index -/

/-- C9 (code bug): from the reachable state in which the single trigger
`t1` is filed under `chat.prompt`, `getTriggersForAllKeys` raises
`TypeError` — the dict comprehension calls the two-parameter
`getTriggersForKey` with one argument — although `getTriggersForKey`
itself answers for that key; over an empty index it returns the empty
mapping. -/
theorem getTriggersForAllKeys_type_error :
    ∃ r : Registry, addTrigger (fun _ => false)
        ⟨false, [("chat", ["prompt"])], [], [], [], []⟩ [] "t1"
        ["chat.prompt"] (.func 3) = .ok r
      ∧ r.triggers = [("chat.prompt", [⟨"t1", false⟩])]
      ∧ getTriggersForAllKeys r
          = .error (.typeErrorMissingArg "getTriggersForKey" "key")
      ∧ getTriggersForKey r "chat" "prompt" = ["t1"]
      ∧ getTriggersForAllKeys ⟨false, [("chat", ["prompt"])], [], [], [], []⟩
          = .ok [] := by
  exact ⟨_, rfl, rfl, rfl, rfl, rfl⟩

/-! ## C10 — pipeline executors have zero staleness -/

/-- C10: every executor `addTransform` registers is created with
`max_staleness = 0` (the call passes no staleness bound, so the
constructor default applies), and a zero-staleness executor reuses a
snapshot only when `state_history` holds a snapshot produced exactly at
`id`, and retrains at `id` whenever no snapshot at `id` exists. -/
theorem addTransform_zero_staleness {σ : Type} (pe : PipelineExecutor σ)
    (name : String) (deps : List String) :
    dictGet? name (addTransform pe name deps).transforms = some (initExecutor σ 0)
    ∧ (initExecutor σ 0).max_staleness = 0
    ∧ (∀ (te : TransformExecutor σ), te.max_staleness = 0 → ∀ id v,
        (inferTE te id = (v, false) →
          v = id ∧ id ∈ te.state_history.map (fun p => p.1))
        ∧ (id ∉ te.state_history.map (fun p => p.1) →
            inferTE te id = (id, true))) := by
  refine ⟨dictGet?_dictInsert_self _ _ _, rfl, ?_⟩
  intro te h0 id v
  constructor
  · intro hr
    unfold inferTE at hr
    rw [h0] at hr
    unfold inferVersion at hr
    cases hm : listMax (qualifyingVersions
        (te.state_history.map (fun p => p.1)) 0 id) with
    | none => rw [hm] at hr; simp at hr
    | some m =>
        rw [hm] at hr
        have hr2 : (if m = 0 then (id, true) else (m, false)) = (v, false) := hr
        by_cases hm0 : m = 0
        · rw [if_pos hm0] at hr2; simp at hr2
        · rw [if_neg hm0] at hr2
          obtain ⟨hmh, hmle, hmge⟩ := mem_qualifyingVersions.mp (listMax_mem hm)
          have hmid : m = id := le_antisymm hmle (by omega)
          have hv : v = m := by
            simp only [Prod.mk.injEq] at hr2
            exact hr2.1.symm
          exact ⟨by rw [hv, hmid], by rw [← hmid]; exact hmh⟩
  · intro hnot
    unfold inferTE inferVersion
    rw [h0]
    have hq : qualifyingVersions (te.state_history.map (fun p => p.1)) 0 id
        = [] := by
      cases hqq : qualifyingVersions (te.state_history.map (fun p => p.1)) 0 id with
      | nil => rfl
      | cons x xs =>
          have hx : x ∈ qualifyingVersions
              (te.state_history.map (fun p => p.1)) 0 id := by
            rw [hqq]; exact List.mem_cons_self _ _
          obtain ⟨h1, h2, h3⟩ := mem_qualifyingVersions.mp hx
          have hxid : x = id := le_antisymm h2 (by omega)
          exact absurd (hxid ▸ h1) hnot
    rw [hq]
    rfl

/-- Witness for C10: the registered executor is the zero-staleness one,
and a zero-staleness executor holding only a snapshot at 4 retrains when
asked to infer id 7. -/
theorem addTransform_zero_staleness_witness :
    dictGet? "model"
        (addTransform (⟨[], []⟩ : PipelineExecutor Nat) "model" []).transforms
      = some (initExecutor Nat 0)
    ∧ inferTE (⟨[(4, 9)], some 4, 0⟩ : TransformExecutor Nat) 7 = (7, true) := by
  obtain ⟨h1, _h2, h3⟩ :=
    addTransform_zero_staleness (⟨[], []⟩ : PipelineExecutor Nat) "model" []
  exact ⟨h1, (h3 ⟨[(4, 9)], some 4, 0⟩ rfl 7 0).2 (by decide)⟩

/-! ## C4 — a cyclic dag fails before any node runs -/

theorem dictGet?_of_mem_nodup {κ α : Type} [DecidableEq κ] {l : List (κ × α)}
    (hnd : (l.map (fun p => p.1)).Nodup) {e : κ × α} (he : e ∈ l) :
    dictGet? e.1 l = some e.2 := by
  induction l with
  | nil => cases he
  | cons p ps ih =>
      rcases List.mem_cons.mp he with he1 | he2
      · subst he1
        simp [dictGet?]
      · have hne : p.1 ≠ e.1 := by
          intro hpe
          have : e.1 ∈ ps.map (fun p => p.1) := List.mem_map_of_mem _ he2
          rw [← hpe] at this
          exact (List.nodup_cons.mp hnd).1 this
        have hnd2 : (ps.map (fun p => p.1)).Nodup := (List.nodup_cons.mp hnd).2
        simp [dictGet?, hne, ih hnd2 he2]

theorem dictGet?_mem_keys {κ α : Type} [DecidableEq κ] {l : List (κ × α)}
    {k : κ} {v : α} (h : dictGet? k l = some v) : k ∈ l.map (fun p => p.1) := by
  induction l with
  | nil => cases h
  | cons p ps ih =>
      by_cases hpk : p.1 = k
      · simp [hpk]
      · simp only [dictGet?, if_neg hpk] at h
        simp [ih h]

theorem readyNodes_mem (d : Dag) (done : List String)
    (hkeys : (dagKeys d).Nodup) {n : String} (hn : n ∈ readyNodes d done) :
    n ∉ done ∧ ∀ q ∈ depsOf d n, q ∈ done := by
  obtain ⟨e, he, heq⟩ := List.mem_map.mp hn
  obtain ⟨hed, hpred⟩ := List.mem_filter.mp he
  simp only [Bool.and_eq_true, decide_eq_true_eq, List.all_eq_true] at hpred
  have hdeps : depsOf d n = e.2 := by
    rw [← heq]
    unfold depsOf
    rw [dictGet?_of_mem_nodup hkeys hed]
    rfl
  refine ⟨heq ▸ hpred.1, ?_⟩
  intro q hq
  rw [hdeps] at hq
  exact hpred.2 q hq

/-- A set of nodes each of which has a dependency inside the set:
no member can ever become ready, so Kahn peeling never completes. -/
theorem peel_stalls (d : Dag) (hkeys : (dagKeys d).Nodup) (S : List String)
    (hne : S ≠ [])
    (hsucc : ∀ m ∈ S, ∃ m2, m2 ∈ S ∧ m2 ∈ depsOf d m) :
    ∀ fuel done, (∀ m ∈ S, m ∉ done) → peel d fuel done = false := by
  have hSkeys : ∀ m ∈ S, m ∈ dagKeys d := by
    intro m hm
    obtain ⟨m2, _, hm2d⟩ := hsucc m hm
    unfold depsOf at hm2d
    cases hg : dictGet? m d with
    | none => rw [hg] at hm2d; cases hm2d
    | some l => exact dictGet?_mem_keys hg
  have hbase : ∀ done : List String, (∀ m ∈ S, m ∉ done) →
      ((dagKeys d).all (fun n => decide (n ∈ done))) = false := by
    intro done hdis
    obtain ⟨m, hm⟩ := List.exists_mem_of_ne_nil S hne
    cases hall : (dagKeys d).all (fun n => decide (n ∈ done)) with
    | false => rfl
    | true =>
        have := List.all_eq_true.mp hall m (hSkeys m hm)
        exact absurd (decide_eq_true_eq.mp this) (hdis m hm)
  intro fuel
  induction fuel with
  | zero => intro done hdis; exact hbase done hdis
  | succ fuel ih =>
      intro done hdis
      have hdis2 : ∀ m ∈ S, m ∉ done ++ readyNodes d done := by
        intro m hm hmem
        rcases List.mem_append.mp hmem with h1 | h2
        · exact hdis m hm h1
        · obtain ⟨_, hdeps⟩ := readyNodes_mem d done hkeys h2
          obtain ⟨m2, hm2S, hm2d⟩ := hsucc m hm
          exact hdis m2 hm2S (hdeps m2 hm2d)
      show (if readyNodes d done = [] then
          (dagKeys d).all (fun n => decide (n ∈ done))
        else peel d fuel (done ++ readyNodes d done)) = false
      by_cases hr : readyNodes d done = []
      · rw [if_pos hr]; exact hbase done hdis
      · rw [if_neg hr]; exact ih (done ++ readyNodes d done) hdis2

theorem depPath_succ_set (d : Dag) {a b : String} {k : Nat}
    (hp : DepPath d a b k) : ∃ S : List String, a ∈ S
      ∧ ∀ m ∈ S, m = b ∨ ∃ m2, m2 ∈ S ∧ m2 ∈ depsOf d m := by
  induction hp with
  | single hab =>
      rename_i a b
      refine ⟨[a, b], by simp, ?_⟩
      intro m hm
      rcases List.mem_cons.mp hm with h1 | h2
      · exact Or.inr ⟨b, by simp, h1 ▸ hab⟩
      · left
        simpa using h2
  | cons hab hp2 ih =>
      rename_i a b c k2
      obtain ⟨S, hbS, hS⟩ := ih
      refine ⟨a :: S, List.mem_cons_self _ _, ?_⟩
      intro m hm
      rcases List.mem_cons.mp hm with h1 | h2
      · exact Or.inr ⟨b, List.mem_cons_of_mem _ hbS, h1 ▸ hab⟩
      · rcases hS m h2 with h3 | ⟨m2, hm2S, hm2d⟩
        · exact Or.inl h3
        · exact Or.inr ⟨m2, List.mem_cons_of_mem _ hm2S, hm2d⟩

theorem cycle_succ_set (d : Dag) {n : String} {k : Nat} (hp : DepPath d n n k) :
    ∃ S : List String, S ≠ []
      ∧ ∀ m ∈ S, ∃ m2, m2 ∈ S ∧ m2 ∈ depsOf d m := by
  cases hp with
  | single hnn => exact ⟨[n], by simp, fun m hm => ⟨n, by simp, by
      rcases List.mem_cons.mp hm with h1 | h2
      · exact h1 ▸ hnn
      · cases h2⟩⟩
  | cons hab hp2 =>
      rename_i b k2
      obtain ⟨S, hbS, hS⟩ := depPath_succ_set d hp2
      refine ⟨n :: S, by simp, ?_⟩
      intro m hm
      rcases List.mem_cons.mp hm with h1 | h2
      · exact ⟨b, List.mem_cons_of_mem _ hbS, h1 ▸ hab⟩
      · rcases hS m h2 with h3 | ⟨m2, hm2S, hm2d⟩
        · exact ⟨b, List.mem_cons_of_mem _ hbS, h3 ▸ hab⟩
        · exact ⟨m2, List.mem_cons_of_mem _ hm2S, hm2d⟩

/-- C4: for every dag (a dict, so with distinct keys) containing a
dependency cycle, `executemany` fails with `CycleError` — raised by
`TopologicalSorter.prepare()` — before any node's `infer` is invoked: the
error result carries no trace and no result. -/
theorem executemany_cycle_error (d : Dag) (ids : List Nat)
    (hkeys : (dagKeys d).Nodup) {n : String} {k : Nat}
    (hcyc : DepPath d n n k) :
    executemany d ids = .error .cycleError := by
  obtain ⟨S, hne, hsucc⟩ := cycle_succ_set d hcyc
  have hstall := peel_stalls d hkeys S hne hsucc d.length []
    (fun m _ hmem => List.not_mem_nil m hmem)
  unfold executemany hasCycle
  rw [hstall]
  rfl

/-- Witness for C4: the two-node cycle `a -> b -> a` makes `executemany`
fail with `CycleError`. -/
theorem executemany_cycle_error_witness :
    executemany [("a", ["b"]), ("b", ["a"])] [1] = .error .cycleError :=
  executemany_cycle_error [("a", ["b"]), ("b", ["a"])] [1] (by decide)
    (DepPath.cons (a := "a") (b := "b") (by decide)
      (DepPath.single (by decide)))

/-! ## C2 — dependency order in `executemany` -/

theorem readyNodes_nodup (d : Dag) (hkeys : (dagKeys d).Nodup)
    (done : List String) : (readyNodes d done).Nodup := by
  unfold readyNodes
  unfold dagKeys at hkeys
  exact List.Nodup.sublist
    (List.Sublist.map (fun p => p.1) (List.filter_sublist d)) hkeys

theorem execNodes_split (d : Dag) (hkeys : (dagKeys d).Nodup) :
    ∀ (fuel : Nat) (done t₁ t₂ : List String) (n : String),
      execNodes d fuel done = t₁ ++ n :: t₂ →
      ∀ q ∈ depsOf d n, q ∈ done ∨ q ∈ t₁ := by
  intro fuel
  induction fuel with
  | zero =>
      intro done t₁ t₂ n h q hq
      simp [execNodes] at h
  | succ fuel ih =>
      intro done t₁ t₂ n h q hq
      have hunf : execNodes d (fuel + 1) done
          = if readyNodes d done = [] then []
            else readyNodes d done ++ execNodes d fuel (done ++ readyNodes d done) :=
        rfl
      rw [hunf] at h
      by_cases hr : readyNodes d done = []
      · rw [if_pos hr] at h; simp at h
      · rw [if_neg hr] at h
        rcases List.append_eq_append_iff.mp h with ⟨a2, ht1, hrest⟩ | ⟨c2, hrr, hct⟩
        · rcases ih (done ++ readyNodes d done) a2 t₂ n hrest q hq with hq1 | hq2
          · rcases List.mem_append.mp hq1 with hd | hrn
            · exact Or.inl hd
            · exact Or.inr (ht1 ▸ List.mem_append_left _ hrn)
          · exact Or.inr (ht1 ▸ List.mem_append_right _ hq2)
        · cases c2 with
          | nil =>
              simp only [List.nil_append] at hct
              rcases ih (done ++ readyNodes d done) [] t₂ n hct.symm q hq
                  with hq1 | hq2
              · rcases List.mem_append.mp hq1 with hd | hrn
                · exact Or.inl hd
                · refine Or.inr ?_
                  have ht1r : readyNodes d done = t₁ := by
                    simpa using hrr
                  exact ht1r ▸ hrn
              · cases hq2
          | cons x c2tail =>
              rw [List.cons_append] at hct
              have hxn : n = x := by injection hct
              have hnr : n ∈ readyNodes d done := by
                rw [hrr, hxn]
                exact List.mem_append_right _ (List.mem_cons_self _ _)
              exact Or.inl ((readyNodes_mem d done hkeys hnr).2 q hq)

theorem execNodes_nodup (d : Dag) (hkeys : (dagKeys d).Nodup) :
    ∀ (fuel : Nat) (done : List String),
      (execNodes d fuel done).Nodup
      ∧ ∀ n ∈ execNodes d fuel done, n ∉ done := by
  intro fuel
  induction fuel with
  | zero => intro done; exact ⟨List.nodup_nil, by simp [execNodes]⟩
  | succ fuel ih =>
      intro done
      have hunf : execNodes d (fuel + 1) done
          = if readyNodes d done = [] then []
            else readyNodes d done ++ execNodes d fuel (done ++ readyNodes d done) :=
        rfl
      rw [hunf]
      by_cases hr : readyNodes d done = []
      · rw [if_pos hr]; exact ⟨List.nodup_nil, by simp⟩
      · rw [if_neg hr]
        obtain ⟨hnd2, hdis2⟩ := ih (done ++ readyNodes d done)
        constructor
        · refine List.Nodup.append (readyNodes_nodup d hkeys done) hnd2 ?_
          intro a ha harest
          exact hdis2 a harest (List.mem_append_right _ ha)
        · intro n hn hdone
          rcases List.mem_append.mp hn with h1 | h2
          · exact (readyNodes_mem d done hkeys h1).1 hdone
          · exact hdis2 n h2 (List.mem_append_left _ hdone)

theorem flatMap_split {α β : Type} (f : α → List β) :
    ∀ (s : List α) (t₁ : List β) (e : β) (t₂ : List β),
      s.flatMap f = t₁ ++ e :: t₂ →
      ∃ s₁ m s₂ u₁ u₂, s = s₁ ++ m :: s₂ ∧ f m = u₁ ++ e :: u₂
        ∧ t₁ = s₁.flatMap f ++ u₁ := by
  intro s
  induction s with
  | nil => intro t₁ e t₂ h; simp at h
  | cons m s2 ih =>
      intro t₁ e t₂ h
      rw [List.flatMap_cons] at h
      rcases List.append_eq_append_iff.mp h with ⟨a2, ht1, hrest⟩ | ⟨c2, hfm, hct⟩
      · obtain ⟨s₁, m2, s₂, u₁, u₂, hs, hfm2, ht⟩ := ih a2 e t₂ hrest
        refine ⟨m :: s₁, m2, s₂, u₁, u₂, by rw [hs]; rfl, hfm2, ?_⟩
        rw [ht1, ht, List.flatMap_cons, List.append_assoc]
      · cases c2 with
        | nil =>
            simp only [List.nil_append] at hct
            obtain ⟨s₁, m2, s₂, u₁, u₂, hs, hfm2, ht⟩ := ih [] e t₂ hct.symm
            obtain ⟨h01, h02⟩ := List.append_eq_nil.mp ht.symm
            refine ⟨m :: s₁, m2, s₂, u₁, u₂, by rw [hs]; rfl, hfm2, ?_⟩
            rw [List.flatMap_cons, h01, h02, List.append_nil, List.append_nil]
            simpa using hfm.symm
        | cons x c2tail =>
            rw [List.cons_append] at hct
            have hxe : e = x := by injection hct
            have ht2 : t₂ = c2tail ++ s2.flatMap f := by injection hct
            refine ⟨[], m, s2, t₁, c2tail, rfl, ?_, by simp⟩
            rw [hfm, hxe]

theorem mem_nodeBlock {ids : List Nat} {n n2 : String} {i : Nat} :
    (n2, i) ∈ nodeBlock ids n ↔ n2 = n ∧ i ∈ ids := by
  constructor
  · intro h
    obtain ⟨x, hx, hpe⟩ := List.mem_map.mp h
    simp only [Prod.mk.injEq] at hpe
    exact ⟨hpe.1.symm, hpe.2 ▸ hx⟩
  · rintro ⟨rfl, hi⟩
    exact List.mem_map_of_mem _ hi

theorem nodeBlock_filter_eq (ids : List Nat) (m n : String) :
    (nodeBlock ids m).filter (fun e => decide (e.1 = n))
      = if m = n then nodeBlock ids n else [] := by
  induction ids with
  | nil => simp [nodeBlock]
  | cons i is ih =>
      by_cases hmn : m = n
      · subst hmn
        simp only [nodeBlock, List.map_cons, List.filter_cons] at ih ⊢
        simp [ih]
      · simp only [nodeBlock, List.map_cons, List.filter_cons] at ih ⊢
        simp [hmn, ih]

theorem flatMap_blocks_filter (ids : List Nat) (n : String) :
    ∀ (s : List String), s.Nodup →
      (s.flatMap (nodeBlock ids)).filter (fun e => decide (e.1 = n))
        = if n ∈ s then nodeBlock ids n else [] := by
  intro s
  induction s with
  | nil => intro _; simp
  | cons m s2 ih =>
      intro hnd
      obtain ⟨hm, hnd2⟩ := List.nodup_cons.mp hnd
      rw [List.flatMap_cons, List.filter_append, nodeBlock_filter_eq, ih hnd2]
      by_cases hmn : m = n
      · subst hmn
        rw [if_pos rfl, if_neg hm, if_pos (List.mem_cons_self m s2)]
        simp
      · rw [if_neg hmn]
        by_cases hns : n ∈ s2
        · rw [if_pos hns, if_pos (List.mem_cons_of_mem _ hns)]
          simp
        · rw [if_neg hns, if_neg (by
            intro hc
            rcases List.mem_cons.mp hc with h1 | h2
            · exact hmn h1.symm
            · exact hns h2)]
          simp

/-- C2: over a pipeline dag as `addTransform` builds it (a Python dict, so
with distinct keys, and with every declared dependency itself a registered
transform), whenever `executemany` returns a trace of `infer` invocations,
no event of a node precedes the complete batch of events of any of that
node's declared dependencies, and the events of any single node are
exactly the batch ids, in batch order. -/
theorem executemany_respects_dependencies (d : Dag) (ids : List Nat)
    (hkeys : (dagKeys d).Nodup)
    (_hwf : ∀ p ∈ d, ∀ q ∈ p.2, q ∈ dagKeys d)
    (tr : List (String × Nat)) (h : executemany d ids = .ok tr) :
    (∀ t₁ n id t₂, tr = t₁ ++ (n, id) :: t₂ →
        ∀ q ∈ depsOf d n, ∀ id2 ∈ ids, (q, id2) ∈ t₁)
    ∧ (∀ n, tr.filter (fun e => decide (e.1 = n)) = nodeBlock ids n
        ∨ tr.filter (fun e => decide (e.1 = n)) = []) := by
  have htr : tr = (execNodes d d.length []).flatMap (nodeBlock ids) := by
    unfold executemany at h
    by_cases hc : hasCycle d = true
    · rw [if_pos hc] at h; cases h
    · rw [if_neg hc] at h
      simp only [Except.ok.injEq] at h
      exact h.symm
  subst htr
  constructor
  · intro t₁ n id t₂ hsplit q hq id2 hid2
    obtain ⟨s₁, m, s₂, u₁, u₂, hs, hblock, ht1⟩ :=
      flatMap_split (nodeBlock ids) _ t₁ (n, id) t₂ hsplit
    have hmn : m = n := by
      have hmem : (n, id) ∈ nodeBlock ids m := by
        rw [hblock]
        exact List.mem_append_right _ (List.mem_cons_self _ _)
      exact (mem_nodeBlock.mp hmem).1.symm
    subst hmn
    have hqs : q ∈ s₁ := by
      rcases execNodes_split d hkeys d.length [] s₁ s₂ m hs q hq with h1 | h2
      · cases h1
      · exact h2
    have hmem2 : (q, id2) ∈ s₁.flatMap (nodeBlock ids) :=
      List.mem_flatMap.mpr ⟨q, hqs, mem_nodeBlock.mpr ⟨rfl, hid2⟩⟩
    rw [ht1]
    exact List.mem_append_left _ hmem2
  · intro n
    have hnd := (execNodes_nodup d hkeys d.length []).1
    rw [flatMap_blocks_filter ids n _ hnd]
    by_cases hn : n ∈ execNodes d d.length []
    · rw [if_pos hn]; exact Or.inl rfl
    · rw [if_neg hn]; exact Or.inr rfl

/-- Witness for C2: in the two-node pipeline `b` after `a` with batch
`[1, 2]`, the whole batch of `a` precedes the first event of `b`. -/
theorem executemany_respects_dependencies_witness :
    (("a", 2) : String × Nat) ∈ ([("a", 1), ("a", 2)] : List (String × Nat)) :=
  (executemany_respects_dependencies [("a", []), ("b", ["a"])] [1, 2]
    (by decide) (by decide) [("a", 1), ("a", 2), ("b", 1), ("b", 2)] rfl).1
    [("a", 1), ("a", 2)] "b" 1 [("b", 2)] rfl "a" (by decide) 2 (by decide)

end Motion
